import Mathlib

/-!
Verification development for the lightning-terminal corpus: the account TLV
serialization in `accounts/tlv.go`, the litcli privacy-map numeric-codec
pipeline in `cmd/litcli/privacy_map.go`, and spec-level models of the
privacy mapper and the account ledger whose sources are outside the corpus.

Bytes are modelled as natural numbers (every encoder below only ever emits
values `< 256`); byte strings are `List Nat`; Go's `uint64`/`int64`/`uint8`
are `Nat`/`Int` with explicit reductions modulo `2 ^ 64` (resp. `256`) at
the points where the Go code casts.
-/

namespace LitVerify

/-- Big-endian digit expansion of `v` in base `base`, padded (or truncated)
to exactly `w` digits, most significant first. With `base = 256` this is the
fixed-width big-endian integer encoding used by lnd's tlv primitives. -/
def baseDigits (base : Nat) : Nat → Nat → List Nat
  | 0, _ => []
  | w + 1, v => baseDigits base w (v / base) ++ [v % base]

/-- Value of a big-endian digit list in base `base`. -/
def baseVal (base : Nat) (ds : List Nat) : Nat :=
  ds.foldl (fun acc d => acc * base + d) 0

theorem baseVal_nil (base : Nat) : baseVal base [] = 0 := rfl

theorem baseVal_snoc (base d : Nat) (ds : List Nat) :
    baseVal base (ds ++ [d]) = baseVal base ds * base + d := by
  simp [baseVal, List.foldl_append]

@[simp] theorem baseDigits_length (base w v : Nat) :
    (baseDigits base w v).length = w := by
  induction w generalizing v with
  | zero => rfl
  | succ w ih => simp [baseDigits, ih]

theorem baseVal_baseDigits (base w : Nat) :
    ∀ v, baseVal base (baseDigits base w v) = v % base ^ w := by
  induction w with
  | zero => intro v; simp [baseDigits, baseVal, Nat.mod_one]
  | succ w ih =>
    intro v
    rw [baseDigits, baseVal_snoc, ih]
    have h : v % (base * base ^ w) = v % base + base * (v / base % base ^ w) :=
      Nat.mod_mul
    have h2 : base ^ (w + 1) = base * base ^ w := by ring
    rw [h2, h]
    ring

theorem baseVal_baseDigits_of_lt (base w v : Nat) (hv : v < base ^ w) :
    baseVal base (baseDigits base w v) = v := by
  rw [baseVal_baseDigits, Nat.mod_eq_of_lt hv]

theorem baseDigits_lt (base w : Nat) (hb : 0 < base) :
    ∀ v, ∀ d ∈ baseDigits base w v, d < base := by
  induction w with
  | zero => intro v d hd; simp [baseDigits] at hd
  | succ w ih =>
    intro v d hd
    rw [baseDigits] at hd
    rcases List.mem_append.mp hd with h | h
    · exact ih _ _ h
    · rcases List.mem_singleton.mp h with rfl
      exact Nat.mod_lt _ hb

theorem baseDigits_baseVal (base : Nat) (hb : 0 < base) :
    ∀ ds : List Nat, (∀ d ∈ ds, d < base) →
      baseDigits base ds.length (baseVal base ds) = ds := by
  intro ds
  induction ds using List.reverseRecOn with
  | nil => intro _; rfl
  | append_singleton ds d ih =>
    intro hlt
    have hd : d < base := hlt d (by simp)
    have hds : ∀ x ∈ ds, x < base := fun x hx => hlt x (by simp [hx])
    have hlen : (ds ++ [d]).length = ds.length + 1 := by simp
    rw [hlen, baseDigits, baseVal_snoc]
    have hdiv : (baseVal base ds * base + d) / base = baseVal base ds := by
      rw [Nat.add_comm, Nat.add_mul_div_right _ _ hb, Nat.div_eq_of_lt hd, Nat.zero_add]
    have hmod : (baseVal base ds * base + d) % base = d := by
      rw [Nat.add_comm, Nat.add_mul_mod_self_right]
      exact Nat.mod_eq_of_lt hd
    rw [hdiv, hmod, ih hds]

/-- Fixed-width big-endian byte encoding (lnd tlv's `EUint64`/`EUint8` etc.). -/
def beBytes (w v : Nat) : List Nat := baseDigits 256 w v

/-- Big-endian value of a byte list. -/
def beVal (bs : List Nat) : Nat := baseVal 256 bs

@[simp] theorem beBytes_length (w v : Nat) : (beBytes w v).length = w :=
  baseDigits_length 256 w v

theorem beVal_beBytes (w v : Nat) (hv : v < 256 ^ w) :
    beVal (beBytes w v) = v :=
  baseVal_baseDigits_of_lt 256 w v hv

theorem beVal_beBytes_mod (w v : Nat) : beVal (beBytes w v) = v % 256 ^ w :=
  baseVal_baseDigits 256 w v

theorem beVal_singleton (b : Nat) : beVal [b] = b := by
  simp [beVal, baseVal]

/-- Reading exactly `n` bytes from a stream (`io.ReadFull` semantics: fails
if fewer than `n` bytes remain). -/
def readBytes (n : Nat) (bs : List Nat) : Option (List Nat × List Nat) :=
  if n ≤ bs.length then some (bs.take n, bs.drop n) else none

theorem readBytes_append (l rest : List Nat) :
    readBytes l.length (l ++ rest) = some (l, rest) := by
  unfold readBytes
  rw [if_pos (by simp)]
  simp

theorem readBytes_append_of_len (n : Nat) (l rest : List Nat) (h : l.length = n) :
    readBytes n (l ++ rest) = some (l, rest) := by
  subst h; exact readBytes_append l rest

/-- lnd tlv `WriteVarInt`: the BigSize encoding of a `uint64`. -/
def writeVarInt (v : Nat) : List Nat :=
  if v < 0xfd then [v]
  else if v < 0x10000 then 0xfd :: beBytes 2 v
  else if v < 0x100000000 then 0xfe :: beBytes 4 v
  else 0xff :: beBytes 8 v

/-- lnd tlv `ReadVarInt`: BigSize decoding, rejecting non-canonical
(non-minimal) encodings exactly as the Go implementation does. -/
def readVarInt (bs : List Nat) : Option (Nat × List Nat) :=
  match bs with
  | [] => none
  | b :: rest =>
    if b < 0xfd then some (b, rest)
    else if b = 0xfd then
      match readBytes 2 rest with
      | none => none
      | some (ds, rest2) =>
        if beVal ds < 0xfd then none else some (beVal ds, rest2)
    else if b = 0xfe then
      match readBytes 4 rest with
      | none => none
      | some (ds, rest2) =>
        if beVal ds < 0x10000 then none else some (beVal ds, rest2)
    else
      match readBytes 8 rest with
      | none => none
      | some (ds, rest2) =>
        if beVal ds < 0x100000000 then none else some (beVal ds, rest2)

theorem writeVarInt_ne_nil (v : Nat) : writeVarInt v ≠ [] := by
  unfold writeVarInt
  split_ifs <;> simp

theorem writeVarInt_length_pos (v : Nat) : 1 ≤ (writeVarInt v).length := by
  unfold writeVarInt
  split_ifs <;> simp

theorem readVarInt_writeVarInt (v : Nat) (hv : v < 2 ^ 64) (rest : List Nat) :
    readVarInt (writeVarInt v ++ rest) = some (v, rest) := by
  unfold writeVarInt
  by_cases h1 : v < 0xfd
  · simp [h1, readVarInt]
  · by_cases h2 : v < 0x10000
    · have hval : beVal (beBytes 2 v) = v := beVal_beBytes 2 v (by norm_num at h2 ⊢; omega)
      have hrb : readBytes 2 (beBytes 2 v ++ rest) = some (beBytes 2 v, rest) :=
        readBytes_append_of_len 2 _ rest (beBytes_length 2 v)
      simp [readVarInt, List.cons_append, hrb, hval, h1, h2]
    · by_cases h3 : v < 0x100000000
      · have hval : beVal (beBytes 4 v) = v := beVal_beBytes 4 v (by norm_num at h3 ⊢; omega)
        have hrb : readBytes 4 (beBytes 4 v ++ rest) = some (beBytes 4 v, rest) :=
          readBytes_append_of_len 4 _ rest (beBytes_length 4 v)
        simp [readVarInt, List.cons_append, hrb, hval, h1, h2, h3]
      · have hval : beVal (beBytes 8 v) = v := beVal_beBytes 8 v (by norm_num at hv ⊢; omega)
        have hrb : readBytes 8 (beBytes 8 v ++ rest) = some (beBytes 8 v, rest) :=
          readBytes_append_of_len 8 _ rest (beBytes_length 8 v)
        simp [readVarInt, List.cons_append, hrb, hval, h1, h2, h3]

/-! ### Data model of `accounts` (tlv.go and the types it serializes) -/

/-- A payment entry: `Status` is an `lnrpc.Payment_PaymentStatus` (a Go
`int32` enum) and `FullAmount` an `lnwire.MilliSatoshi` (a `uint64`). -/
structure PaymentEntry where
  status : Int
  fullAmount : Nat
deriving DecidableEq

/-- Go `time.Time` as this code constructs it: the zero value, or
`time.Unix(0, ns)` for an `int64` nanosecond count. No `time.Unix(0, ns)`
value satisfies `IsZero`, so the two constructors faithfully separate the
`IsZero` test used by `serializeAccount`. -/
inductive GoTime where
  | zeroTime : GoTime
  | unix (ns : Int) : GoTime
deriving DecidableEq

/-- Go `time.Time.IsZero` on the values above. -/
def GoTime.isZero : GoTime → Bool
  | .zeroTime => true
  | .unix _ => false

/-- The `int64` Go returns for `time.Time{}.UnixNano()` (the year-1 instant
overflows and wraps to this value). -/
def zeroTimeUnixNano : Int := -6795364578871345152

/-- Go `time.Time.UnixNano` on the values above. -/
def GoTime.unixNano : GoTime → Int
  | .zeroTime => zeroTimeUnixNano
  | .unix ns => ns

/-- Go `uint64(i)` cast of an `int64` value. -/
def uint64Cast (i : Int) : Nat := (i % 2 ^ 64).toNat

/-- Go `int64(u)` cast of a `uint64` value. -/
def int64Cast (u : Nat) : Int :=
  if u % 2 ^ 64 < 2 ^ 63 then ((u % 2 ^ 64 : Nat) : Int)
  else ((u % 2 ^ 64 : Nat) : Int) - 2 ^ 64

/-- `accounts.OffChainBalanceAccount`. `ID` is an `[32]byte`, `Type`
(`accountType` here, `type` being reserved) a `uint8`, `InitialBalance` a
`uint64` `lnwire.MilliSatoshi`, `CurrentBalance` an `int64`. The Go maps
`Invoices : map[lntypes.Hash]struct{}` and
`Payments : map[lntypes.Hash]*PaymentEntry` are modelled as association
lists with pairwise-distinct keys, in one fixed iteration order. -/
structure OffChainBalanceAccount where
  id : List Nat
  accountType : Nat
  initialBalance : Nat
  currentBalance : Int
  lastUpdate : GoTime
  expirationDate : GoTime
  invoices : List (List Nat)
  payments : List (List Nat × PaymentEntry)
deriving DecidableEq

/-- An `int64` value. -/
def Int64Range (i : Int) : Prop := -(2 ^ 63) ≤ i ∧ i < 2 ^ 63

instance (i : Int) : Decidable (Int64Range i) := by
  unfold Int64Range; infer_instance

/-- A nanosecond instant representable by this code's `time.Time` values. -/
def GoTime.wf : GoTime → Prop
  | .zeroTime => True
  | .unix ns => Int64Range ns

instance (t : GoTime) : Decidable t.wf := by
  cases t
  · exact isTrue trivial
  · exact inferInstanceAs (Decidable (Int64Range _))

/-- An `lntypes.Hash`: exactly 32 bytes. -/
def HashWF (h : List Nat) : Prop := h.length = 32 ∧ ∀ b ∈ h, b < 256

instance (h : List Nat) : Decidable (HashWF h) := by
  unfold HashWF; infer_instance

/-- Range constraints carried by the Go field types of a `PaymentEntry`
(`int32` status, `uint64` amount). -/
def PaymentEntry.wf (p : PaymentEntry) : Prop :=
  -(2 ^ 31) ≤ p.status ∧ p.status < 2 ^ 31 ∧ p.fullAmount < 2 ^ 64

instance (p : PaymentEntry) : Decidable p.wf := by
  unfold PaymentEntry.wf; infer_instance

/-- The constraints the Go types place on an `OffChainBalanceAccount`:
machine-integer ranges, 32-byte hashes, maps with distinct keys, and map
sizes small enough that the Go `int` arithmetic `len(m) * 32` /
`len(m) * 41` in the record-size closures cannot overflow. -/
def accountWF (a : OffChainBalanceAccount) : Prop :=
  a.id.length = 32 ∧ (∀ b ∈ a.id, b < 256) ∧
  a.accountType < 256 ∧
  a.initialBalance < 2 ^ 64 ∧
  Int64Range a.currentBalance ∧
  a.lastUpdate.wf ∧ a.expirationDate.wf ∧
  (∀ h ∈ a.invoices, HashWF h) ∧ a.invoices.Nodup ∧ a.invoices.length < 2 ^ 58 ∧
  (∀ e ∈ a.payments, HashWF e.1 ∧ e.2.wf) ∧ (a.payments.map Prod.fst).Nodup ∧
  a.payments.length < 2 ^ 58

instance (a : OffChainBalanceAccount) : Decidable (accountWF a) := by
  unfold accountWF; infer_instance

/-! ### Encoders (tlv.go) -/

/-- `HashMapEncoder`: `tlv.WriteVarInt` of the entry count, then each
32-byte hash (`tlv.EBytes32`). -/
def HashMapEncoder (l : List (List Nat)) : List Nat :=
  writeVarInt l.length ++ l.flatten

/-- The value bytes `PaymentEntryMapEncoder` writes per entry: the 32-byte
hash, the single status byte `byte(entry.Status)`, and the 8-byte
big-endian `uint64(entry.FullAmount)`. -/
def encodePaymentEntry (h : List Nat) (p : PaymentEntry) : List Nat :=
  h ++ [(p.status % 256).toNat] ++ beBytes 8 p.fullAmount

/-- `PaymentEntryMapEncoder`: `tlv.WriteVarInt` of the entry count, then
each entry's bytes. -/
def PaymentEntryMapEncoder (l : List (List Nat × PaymentEntry)) : List Nat :=
  writeVarInt l.length ++ (l.map fun e => encodePaymentEntry e.1 e.2).flatten

/-- The `recordSize` closure of `newHashMapRecord`:
`len(*hashMap) * lntypes.HashSize`. -/
def hashMapRecordSize (l : List (List Nat)) : Nat := l.length * 32

/-- The `recordSize` closure of `newPaymentEntryMapRecord`:
`len(*hashMap) * (lntypes.HashSize + 1 + 8)`. -/
def paymentEntryMapRecordSize (l : List (List Nat × PaymentEntry)) : Nat :=
  l.length * (32 + 1 + 8)

/-- One wire TLV record as `tlv.Stream.Encode` emits it: BigSize type,
BigSize declared length (the record's `Size()`), then the bytes the
record's encoder writes. For the two dynamic records of tlv.go the declared
length comes from the `recordSize` closures and is not recomputed from the
encoder output. -/
def tlvRecord (typ declaredLen : Nat) (value : List Nat) : List Nat :=
  writeVarInt typ ++ writeVarInt declaredLen ++ value

/-- `serializeAccount`: the TLV stream with records 1–5, the optional
expiration record 6 (only when `!account.ExpirationDate.IsZero()`), and the
dynamic records 7 (invoices) and 8 (payments). -/
def serializeAccount (a : OffChainBalanceAccount) : List Nat :=
  tlvRecord 1 a.id.length a.id ++
  tlvRecord 2 1 [a.accountType % 256] ++
  tlvRecord 3 8 (beBytes 8 a.initialBalance) ++
  tlvRecord 4 8 (beBytes 8 (uint64Cast a.currentBalance)) ++
  tlvRecord 5 8 (beBytes 8 (uint64Cast a.lastUpdate.unixNano)) ++
  (if a.expirationDate.isZero then []
   else tlvRecord 6 8 (beBytes 8 (uint64Cast a.expirationDate.unixNano))) ++
  tlvRecord 7 (hashMapRecordSize a.invoices) (HashMapEncoder a.invoices) ++
  tlvRecord 8 (paymentEntryMapRecordSize a.payments) (PaymentEntryMapEncoder a.payments)

/-! ### Decoders (tlv.go, over lnd's `tlv.Stream.DecodeWithParsedTypes`) -/

/-- The loop of `HashMapDecoder`: read `n` 32-byte hashes
(`tlv.DBytes32`). -/
def decodeHashes : Nat → List Nat → Option (List (List Nat) × List Nat)
  | 0, bs => some ([], bs)
  | n + 1, bs =>
    match readBytes 32 bs with
    | none => none
    | some (h, r) =>
      match decodeHashes n r with
      | none => none
      | some (hs, r2) => some (h :: hs, r2)

/-- `HashMapDecoder`: `tlv.ReadVarInt` count then that many hashes. The Go
decoder ignores the wire-declared record length argument, reading a
self-delimiting value instead. -/
def HashMapDecoder (bs : List Nat) : Option (List (List Nat) × List Nat) :=
  match readVarInt bs with
  | none => none
  | some (n, r) => decodeHashes n r

/-- The loop of `PaymentEntryMapDecoder`: per entry a 32-byte hash, one
status byte (`r.Read`), and an 8-byte `uint64` (`tlv.DUint64`). -/
def decodePaymentEntries :
    Nat → List Nat → Option (List (List Nat × PaymentEntry) × List Nat)
  | 0, bs => some ([], bs)
  | n + 1, bs =>
    match readBytes 32 bs with
    | none => none
    | some (h, r) =>
      match r with
      | [] => none
      | sb :: r2 =>
        match readBytes 8 r2 with
        | none => none
        | some (ab, r3) =>
          match decodePaymentEntries n r3 with
          | none => none
          | some (es, r4) => some ((h, ⟨(sb : Int), beVal ab⟩) :: es, r4)

/-- `PaymentEntryMapDecoder`: `tlv.ReadVarInt` count then that many
entries; like `HashMapDecoder` it ignores the declared record length. -/
def PaymentEntryMapDecoder (bs : List Nat) :
    Option (List (List Nat × PaymentEntry) × List Nat) :=
  match readVarInt bs with
  | none => none
  | some (n, r) => decodePaymentEntries n r

/-- The mutable locals of `deserializeAccount` plus the set of parsed
record types that `DecodeWithParsedTypes` reports. All eight stream types
are known records, so a type is reported with a `nil` payload exactly when
it occurs in `parsed`. -/
structure DecState where
  id : List Nat
  accountType : Nat
  initialBalance : Nat
  currentBalance : Nat
  lastUpdate : Nat
  expirationDate : Nat
  invoices : List (List Nat)
  payments : List (List Nat × PaymentEntry)
  parsed : List Nat
deriving DecidableEq

/-- The Go zero values the locals of `deserializeAccount` start from. -/
def initDecState : DecState := ⟨[], 0, 0, 0, 0, 0, [], [], []⟩

/-- Decoding one record's value: the per-type dispatch of the stream built
in `deserializeAccount`. Types 1–6 are `tlv.MakePrimitiveRecord` fields
(`DVarBytes` for the id, `DUint8`, `DUint64` — the latter two insist on the
declared lengths 1 resp. 8); 7 and 8 are the dynamic map records; any other
type is unknown and its declared length is skipped. -/
def decodeValue (typ len : Nat) (bs : List Nat) (st : DecState) :
    Option (DecState × List Nat) :=
  if typ = 1 then
    match readBytes len bs with
    | none => none
    | some (v, r) => some ({st with id := v, parsed := typ :: st.parsed}, r)
  else if typ = 2 then
    if len = 1 then
      match readBytes 1 bs with
      | none => none
      | some (v, r) =>
        some ({st with accountType := beVal v, parsed := typ :: st.parsed}, r)
    else none
  else if typ = 3 then
    if len = 8 then
      match readBytes 8 bs with
      | none => none
      | some (v, r) =>
        some ({st with initialBalance := beVal v, parsed := typ :: st.parsed}, r)
    else none
  else if typ = 4 then
    if len = 8 then
      match readBytes 8 bs with
      | none => none
      | some (v, r) =>
        some ({st with currentBalance := beVal v, parsed := typ :: st.parsed}, r)
    else none
  else if typ = 5 then
    if len = 8 then
      match readBytes 8 bs with
      | none => none
      | some (v, r) =>
        some ({st with lastUpdate := beVal v, parsed := typ :: st.parsed}, r)
    else none
  else if typ = 6 then
    if len = 8 then
      match readBytes 8 bs with
      | none => none
      | some (v, r) =>
        some ({st with expirationDate := beVal v, parsed := typ :: st.parsed}, r)
    else none
  else if typ = 7 then
    match HashMapDecoder bs with
    | none => none
    | some (l, r) => some ({st with invoices := l, parsed := typ :: st.parsed}, r)
  else if typ = 8 then
    match PaymentEntryMapDecoder bs with
    | none => none
    | some (l, r) => some ({st with payments := l, parsed := typ :: st.parsed}, r)
  else
    match readBytes len bs with
    | none => none
    | some (_, r) => some ({st with parsed := typ :: st.parsed}, r)

/-- The decode loop of `tlv.Stream.DecodeWithParsedTypes`: at clean EOF it
returns what was parsed; otherwise it reads a BigSize type (which must not
be below the strictly-increasing minimum), a BigSize length, and the
record's value. The fuel argument only bounds the recursion; every
iteration consumes at least one byte, so `input length + 1` iterations are
never exhausted. -/
def decodeLoop : Nat → Nat → DecState → List Nat → Option DecState
  | _, _, st, [] => some st
  | 0, _, _, _ => none
  | fuel + 1, minT, st, b :: bs =>
    match readVarInt (b :: bs) with
    | none => none
    | some (typ, r1) =>
      if typ < minT then none
      else
        match readVarInt r1 with
        | none => none
        | some (len, r2) =>
          match decodeValue typ len r2 st with
          | none => none
          | some (st2, r3) => decodeLoop fuel (typ + 1) st2 r3

/-- The parsed locals and parsed-type set `deserializeAccount` obtains from
the stream. -/
def deserializeAccountState (bs : List Nat) : Option DecState :=
  decodeLoop (bs.length + 1) 0 initDecState bs

/-- The account `deserializeAccount` builds from the decoded locals:
`copy(account.ID[:], id)` into a zeroed 32-byte array, the integer casts,
`time.Unix(0, int64 ns)` for the timestamps, and the expiration date set
only when the type-6 record was parsed (`parsedTypes[typeExpirationDate]`
present with a `nil` payload). -/
def finalizeAccount (st : DecState) : OffChainBalanceAccount :=
  { id := st.id.take 32 ++ List.replicate (32 - st.id.length) 0
  , accountType := st.accountType
  , initialBalance := st.initialBalance
  , currentBalance := int64Cast st.currentBalance
  , lastUpdate := GoTime.unix (int64Cast st.lastUpdate)
  , expirationDate :=
      if 6 ∈ st.parsed then GoTime.unix (int64Cast st.expirationDate)
      else GoTime.zeroTime
  , invoices := st.invoices
  , payments := st.payments }

/-- `deserializeAccount`. -/
def deserializeAccount (bs : List Nat) : Option OffChainBalanceAccount :=
  (deserializeAccountState bs).map finalizeAccount

/-! ### Round-trip lemmas for the pieces of the stream -/

theorem uint64Cast_lt (i : Int) : uint64Cast i < 2 ^ 64 := by
  unfold uint64Cast
  have n64 : (2 : Nat) ^ 64 = 18446744073709551616 := by norm_num
  have e64 : (2 : Int) ^ 64 = 18446744073709551616 := by norm_num
  rw [n64, e64]
  omega

theorem int64Cast_uint64Cast (i : Int) (h1 : -(2 ^ 63) ≤ i) (h2 : i < 2 ^ 63) :
    int64Cast (uint64Cast i) = i := by
  unfold int64Cast uint64Cast
  have n64 : (2 : Nat) ^ 64 = 18446744073709551616 := by norm_num
  have e64 : (2 : Int) ^ 64 = 18446744073709551616 := by norm_num
  have n63 : (2 : Nat) ^ 63 = 9223372036854775808 := by norm_num
  have e63 : (2 : Int) ^ 63 = 9223372036854775808 := by norm_num
  rw [e63] at h1 h2
  simp only [n64, e64, n63]
  split_ifs <;> omega

theorem unixNano_int64 (t : GoTime) (h : t.wf) : Int64Range t.unixNano := by
  cases t with
  | zeroTime =>
    constructor <;> norm_num [GoTime.unixNano, zeroTimeUnixNano]
  | unix ns => exact h

theorem decodeHashes_encode (l : List (List Nat))
    (hwf : ∀ h ∈ l, h.length = 32) :
    ∀ rest, decodeHashes l.length (l.flatten ++ rest) = some (l, rest) := by
  induction l with
  | nil => intro rest; simp [decodeHashes]
  | cons h t ih =>
    intro rest
    have hh : h.length = 32 := hwf h (by simp)
    have ht : ∀ x ∈ t, x.length = 32 := fun x hx => hwf x (by simp [hx])
    have h1 : readBytes 32 (h ++ (t.flatten ++ rest)) = some (h, t.flatten ++ rest) :=
      readBytes_append_of_len 32 h _ hh
    have h2 := ih ht rest
    simp [decodeHashes, List.append_assoc, h1, h2]

theorem HashMapDecoder_encode (l : List (List Nat))
    (hwf : ∀ h ∈ l, h.length = 32) (hcount : l.length < 2 ^ 64)
    (rest : List Nat) :
    HashMapDecoder (HashMapEncoder l ++ rest) = some (l, rest) := by
  unfold HashMapDecoder HashMapEncoder
  rw [List.append_assoc, readVarInt_writeVarInt _ hcount]
  exact decodeHashes_encode l hwf rest

/-- What one payment entry becomes after the encoder's `byte(entry.Status)`
truncation and the decoder's reads: the status reduced to its low byte and
the amount reduced modulo `2 ^ 64`. -/
def truncPaymentEntry (p : PaymentEntry) : PaymentEntry :=
  ⟨(((p.status % 256).toNat : Nat) : Int), p.fullAmount % 2 ^ 64⟩

theorem truncPaymentEntry_eq (p : PaymentEntry) (h0 : 0 ≤ p.status)
    (h1 : p.status < 256) (h2 : p.fullAmount < 2 ^ 64) :
    truncPaymentEntry p = p := by
  unfold truncPaymentEntry
  cases p with
  | mk s fa =>
    simp only [PaymentEntry.mk.injEq]
    constructor
    · simp only at h0 h1; omega
    · exact Nat.mod_eq_of_lt h2

theorem map_truncPaymentEntry_eq (l : List (List Nat × PaymentEntry))
    (h : ∀ e ∈ l, 0 ≤ e.2.status ∧ e.2.status < 256 ∧ e.2.fullAmount < 2 ^ 64) :
    (l.map fun e => (e.1, truncPaymentEntry e.2)) = l := by
  induction l with
  | nil => rfl
  | cons e t ih =>
    obtain ⟨h0, h1, h2⟩ := h e (by simp)
    have ht := ih fun x hx => h x (by simp [hx])
    simp [ht, truncPaymentEntry_eq e.2 h0 h1 h2]

theorem decodePaymentEntries_encode (l : List (List Nat × PaymentEntry))
    (hwf : ∀ e ∈ l, e.1.length = 32) :
    ∀ rest, decodePaymentEntries l.length
      ((l.map fun e => encodePaymentEntry e.1 e.2).flatten ++ rest) =
      some (l.map fun e => (e.1, truncPaymentEntry e.2), rest) := by
  induction l with
  | nil => intro rest; simp [decodePaymentEntries]
  | cons e t ih =>
    intro rest
    have hh := hwf e (by simp)
    have ht : ∀ x ∈ t, x.1.length = 32 := fun x hx => hwf x (by simp [hx])
    have hflat : ((e :: t).map fun x => encodePaymentEntry x.1 x.2).flatten ++ rest
        = e.1 ++ ((e.2.status % 256).toNat ::
            (beBytes 8 e.2.fullAmount ++
              ((t.map fun x => encodePaymentEntry x.1 x.2).flatten ++ rest))) := by
      simp [encodePaymentEntry, List.append_assoc]
    have h1 : readBytes 32 (e.1 ++ ((e.2.status % 256).toNat ::
        (beBytes 8 e.2.fullAmount ++
          ((t.map fun x => encodePaymentEntry x.1 x.2).flatten ++ rest)))) =
        some (e.1, (e.2.status % 256).toNat ::
          (beBytes 8 e.2.fullAmount ++
            ((t.map fun x => encodePaymentEntry x.1 x.2).flatten ++ rest))) :=
      readBytes_append_of_len 32 e.1 _ hh
    have h2 : readBytes 8 (beBytes 8 e.2.fullAmount ++
        ((t.map fun x => encodePaymentEntry x.1 x.2).flatten ++ rest)) =
        some (beBytes 8 e.2.fullAmount,
          (t.map fun x => encodePaymentEntry x.1 x.2).flatten ++ rest) :=
      readBytes_append_of_len 8 _ _ (beBytes_length 8 _)
    have h3 := ih ht rest
    have hav : beVal (beBytes 8 e.2.fullAmount) = e.2.fullAmount % 2 ^ 64 := by
      rw [beVal_beBytes_mod]
      norm_num
    rw [hflat, List.length_cons]
    simp [decodePaymentEntries, h1, h2, h3, hav, truncPaymentEntry]

theorem PaymentEntryMapDecoder_encode (l : List (List Nat × PaymentEntry))
    (hwf : ∀ e ∈ l, e.1.length = 32) (hcount : l.length < 2 ^ 64)
    (rest : List Nat) :
    PaymentEntryMapDecoder (PaymentEntryMapEncoder l ++ rest) =
      some (l.map fun e => (e.1, truncPaymentEntry e.2), rest) := by
  unfold PaymentEntryMapDecoder PaymentEntryMapEncoder
  rw [List.append_assoc, readVarInt_writeVarInt _ hcount]
  exact decodePaymentEntries_encode l hwf rest

theorem decodeLoop_record (fuel minT typ len : Nat) (st : DecState)
    (value rest : List Nat) (htyp : typ < 2 ^ 64) (hmin : minT ≤ typ)
    (hlen : len < 2 ^ 64) :
    decodeLoop (fuel + 1) minT st (tlvRecord typ len value ++ rest) =
      match decodeValue typ len (value ++ rest) st with
      | none => none
      | some (st2, r3) => decodeLoop fuel (typ + 1) st2 r3 := by
  have hb : tlvRecord typ len value ++ rest =
      writeVarInt typ ++ (writeVarInt len ++ (value ++ rest)) := by
    simp [tlvRecord]
  rcases hw : writeVarInt typ with _ | ⟨b, tb⟩
  · exact absurd hw (writeVarInt_ne_nil typ)
  · have hbs : tlvRecord typ len value ++ rest
        = b :: (tb ++ (writeVarInt len ++ (value ++ rest))) := by
      rw [hb, hw]; simp
    rw [hbs]
    have h1 : readVarInt (b :: (tb ++ (writeVarInt len ++ (value ++ rest))))
        = some (typ, writeVarInt len ++ (value ++ rest)) := by
      rw [← List.cons_append, ← hw]
      exact readVarInt_writeVarInt typ htyp _
    have h2 : readVarInt (writeVarInt len ++ (value ++ rest)) =
        some (len, value ++ rest) :=
      readVarInt_writeVarInt len hlen _
    simp [decodeLoop, h1, h2, Nat.not_lt.mpr hmin]

theorem decodeLoop_nil (fuel minT : Nat) (st : DecState) :
    decodeLoop fuel minT st [] = some st := by
  cases fuel <;> rfl

theorem decodeStep_id (fuel minT : Nat) (hmin : minT ≤ 1) (st : DecState)
    (v rest : List Nat) (hlen : v.length < 2 ^ 64) :
    decodeLoop (fuel + 1) minT st (tlvRecord 1 v.length v ++ rest) =
      decodeLoop fuel 2 {st with id := v, parsed := 1 :: st.parsed} rest := by
  rw [decodeLoop_record fuel minT 1 v.length st v rest (by norm_num) hmin hlen]
  simp [decodeValue, readBytes_append]

theorem decodeStep_accountType (fuel minT : Nat) (hmin : minT ≤ 2)
    (st : DecState) (b : Nat) (rest : List Nat) :
    decodeLoop (fuel + 1) minT st (tlvRecord 2 1 [b] ++ rest) =
      decodeLoop fuel 3 {st with accountType := b, parsed := 2 :: st.parsed}
        rest := by
  rw [decodeLoop_record fuel minT 2 1 st [b] rest (by norm_num) hmin (by norm_num)]
  simp [decodeValue, readBytes, beVal_singleton]

theorem decodeStep_initialBalance (fuel minT : Nat) (hmin : minT ≤ 3)
    (st : DecState) (u : Nat) (hu : u < 2 ^ 64) (rest : List Nat) :
    decodeLoop (fuel + 1) minT st (tlvRecord 3 8 (beBytes 8 u) ++ rest) =
      decodeLoop fuel 4 {st with initialBalance := u, parsed := 3 :: st.parsed}
        rest := by
  rw [decodeLoop_record fuel minT 3 8 st _ rest (by norm_num) hmin (by norm_num)]
  have h : readBytes 8 (beBytes 8 u ++ rest) = some (beBytes 8 u, rest) :=
    readBytes_append_of_len 8 _ _ (beBytes_length 8 u)
  have hb : beVal (beBytes 8 u) = u := beVal_beBytes 8 u (by norm_num at hu ⊢; omega)
  simp [decodeValue, h, hb]

theorem decodeStep_currentBalance (fuel minT : Nat) (hmin : minT ≤ 4)
    (st : DecState) (u : Nat) (hu : u < 2 ^ 64) (rest : List Nat) :
    decodeLoop (fuel + 1) minT st (tlvRecord 4 8 (beBytes 8 u) ++ rest) =
      decodeLoop fuel 5 {st with currentBalance := u, parsed := 4 :: st.parsed}
        rest := by
  rw [decodeLoop_record fuel minT 4 8 st _ rest (by norm_num) hmin (by norm_num)]
  have h : readBytes 8 (beBytes 8 u ++ rest) = some (beBytes 8 u, rest) :=
    readBytes_append_of_len 8 _ _ (beBytes_length 8 u)
  have hb : beVal (beBytes 8 u) = u := beVal_beBytes 8 u (by norm_num at hu ⊢; omega)
  simp [decodeValue, h, hb]

theorem decodeStep_lastUpdate (fuel minT : Nat) (hmin : minT ≤ 5)
    (st : DecState) (u : Nat) (hu : u < 2 ^ 64) (rest : List Nat) :
    decodeLoop (fuel + 1) minT st (tlvRecord 5 8 (beBytes 8 u) ++ rest) =
      decodeLoop fuel 6 {st with lastUpdate := u, parsed := 5 :: st.parsed}
        rest := by
  rw [decodeLoop_record fuel minT 5 8 st _ rest (by norm_num) hmin (by norm_num)]
  have h : readBytes 8 (beBytes 8 u ++ rest) = some (beBytes 8 u, rest) :=
    readBytes_append_of_len 8 _ _ (beBytes_length 8 u)
  have hb : beVal (beBytes 8 u) = u := beVal_beBytes 8 u (by norm_num at hu ⊢; omega)
  simp [decodeValue, h, hb]

theorem decodeStep_expiration (fuel minT : Nat) (hmin : minT ≤ 6)
    (st : DecState) (u : Nat) (hu : u < 2 ^ 64) (rest : List Nat) :
    decodeLoop (fuel + 1) minT st (tlvRecord 6 8 (beBytes 8 u) ++ rest) =
      decodeLoop fuel 7 {st with expirationDate := u, parsed := 6 :: st.parsed}
        rest := by
  rw [decodeLoop_record fuel minT 6 8 st _ rest (by norm_num) hmin (by norm_num)]
  have h : readBytes 8 (beBytes 8 u ++ rest) = some (beBytes 8 u, rest) :=
    readBytes_append_of_len 8 _ _ (beBytes_length 8 u)
  have hb : beVal (beBytes 8 u) = u := beVal_beBytes 8 u (by norm_num at hu ⊢; omega)
  simp [decodeValue, h, hb]

theorem decodeStep_invoices (fuel minT len : Nat) (hmin : minT ≤ 7)
    (st : DecState) (l : List (List Nat)) (rest : List Nat)
    (hlen : len < 2 ^ 64) (hwf : ∀ h ∈ l, h.length = 32)
    (hcount : l.length < 2 ^ 64) :
    decodeLoop (fuel + 1) minT st (tlvRecord 7 len (HashMapEncoder l) ++ rest) =
      decodeLoop fuel 8 {st with invoices := l, parsed := 7 :: st.parsed}
        rest := by
  rw [decodeLoop_record fuel minT 7 len st _ rest (by norm_num) hmin hlen]
  have h := HashMapDecoder_encode l hwf hcount rest
  simp [decodeValue, h]

theorem decodeStep_payments (fuel minT len : Nat) (hmin : minT ≤ 8)
    (st : DecState) (l : List (List Nat × PaymentEntry)) (rest : List Nat)
    (hlen : len < 2 ^ 64) (hwf : ∀ e ∈ l, e.1.length = 32)
    (hcount : l.length < 2 ^ 64) :
    decodeLoop (fuel + 1) minT st
        (tlvRecord 8 len (PaymentEntryMapEncoder l) ++ rest) =
      decodeLoop fuel 9
        {st with
          payments := l.map (fun e => (e.1, truncPaymentEntry e.2)),
          parsed := 8 :: st.parsed} rest := by
  rw [decodeLoop_record fuel minT 8 len st _ rest (by norm_num) hmin hlen]
  have h := PaymentEntryMapDecoder_encode l hwf hcount rest
  simp [decodeValue, h]

theorem decodeStep_payments_last (fuel minT len : Nat) (hmin : minT ≤ 8)
    (st : DecState) (l : List (List Nat × PaymentEntry)) (hlen : len < 2 ^ 64)
    (hwf : ∀ e ∈ l, e.1.length = 32) (hcount : l.length < 2 ^ 64) :
    decodeLoop (fuel + 1) minT st (tlvRecord 8 len (PaymentEntryMapEncoder l)) =
      some {st with
        payments := l.map (fun e => (e.1, truncPaymentEntry e.2)),
        parsed := 8 :: st.parsed} := by
  rw [← List.append_nil (tlvRecord 8 len (PaymentEntryMapEncoder l)),
    decodeStep_payments fuel minT len hmin st l [] hlen hwf hcount,
    decodeLoop_nil]

/-- The decode state that reading back a serialized well-formed account
produces. -/
def encodedDecState (a : OffChainBalanceAccount) : DecState :=
  { id := a.id
  , accountType := a.accountType
  , initialBalance := a.initialBalance
  , currentBalance := uint64Cast a.currentBalance
  , lastUpdate := uint64Cast a.lastUpdate.unixNano
  , expirationDate :=
      if a.expirationDate.isZero then 0
      else uint64Cast a.expirationDate.unixNano
  , invoices := a.invoices
  , payments := a.payments.map (fun e => (e.1, truncPaymentEntry e.2))
  , parsed :=
      if a.expirationDate.isZero then [8, 7, 5, 4, 3, 2, 1]
      else [8, 7, 6, 5, 4, 3, 2, 1] }

theorem decodeLoop_serializeAccount (a : OffChainBalanceAccount)
    (hwf : accountWF a) (f : Nat) :
    decodeLoop (f + 9) 0 initDecState (serializeAccount a) =
      some (encodedDecState a) := by
  obtain ⟨hid, hidb, hty, hib, hcb, hlu, hexp, hinv, hinvnd, hinvlen, hpay,
    hpaynd, hpaylen⟩ := hwf
  have hpwf : ∀ e ∈ a.payments, e.1.length = 32 := fun e he => (hpay e he).1.1
  have hiwf : ∀ h ∈ a.invoices, h.length = 32 := fun h hh => (hinv h hh).1
  have hidlen : a.id.length < 2 ^ 64 := by rw [hid]; norm_num
  have hinvc : hashMapRecordSize a.invoices < 2 ^ 64 := by
    unfold hashMapRecordSize
    norm_num at hinvlen ⊢
    omega
  have hinvcount : a.invoices.length < 2 ^ 64 := by
    norm_num at hinvlen ⊢
    omega
  have hpayc : paymentEntryMapRecordSize a.payments < 2 ^ 64 := by
    unfold paymentEntryMapRecordSize
    norm_num at hpaylen ⊢
    omega
  have hcb64 := uint64Cast_lt a.currentBalance
  have hlu64 := uint64Cast_lt a.lastUpdate.unixNano
  have hexp64 := uint64Cast_lt a.expirationDate.unixNano
  unfold serializeAccount encodedDecState
  cases hz : a.expirationDate.isZero with
  | false =>
    simp only [Bool.false_eq_true, if_false, List.append_assoc]
    rw [show f + 9 = f + 8 + 1 by omega,
      decodeStep_id (f + 8) 0 (by norm_num) initDecState a.id _ hidlen,
      show f + 8 = f + 7 + 1 by omega,
      decodeStep_accountType (f + 7) 2 (by norm_num) _ (a.accountType % 256) _,
      show f + 7 = f + 6 + 1 by omega,
      decodeStep_initialBalance (f + 6) 3 (by norm_num) _ a.initialBalance hib _,
      show f + 6 = f + 5 + 1 by omega,
      decodeStep_currentBalance (f + 5) 4 (by norm_num) _ _ hcb64 _,
      show f + 5 = f + 4 + 1 by omega,
      decodeStep_lastUpdate (f + 4) 5 (by norm_num) _ _ hlu64 _,
      show f + 4 = f + 3 + 1 by omega,
      decodeStep_expiration (f + 3) 6 (by norm_num) _ _ hexp64 _,
      show f + 3 = f + 2 + 1 by omega,
      decodeStep_invoices (f + 2) 7 _ (by norm_num) _ a.invoices _ hinvc hiwf
        hinvcount,
      show f + 2 = f + 1 + 1 by omega,
      decodeStep_payments_last (f + 1) 8 _ (by norm_num) _ a.payments hpayc hpwf
        (by norm_num at hpaylen ⊢; omega)]
    simp [initDecState, Nat.mod_eq_of_lt hty]
  | true =>
    simp only [reduceIte, List.nil_append, List.append_assoc]
    rw [show f + 9 = f + 8 + 1 by omega,
      decodeStep_id (f + 8) 0 (by norm_num) initDecState a.id _ hidlen,
      show f + 8 = f + 7 + 1 by omega,
      decodeStep_accountType (f + 7) 2 (by norm_num) _ (a.accountType % 256) _,
      show f + 7 = f + 6 + 1 by omega,
      decodeStep_initialBalance (f + 6) 3 (by norm_num) _ a.initialBalance hib _,
      show f + 6 = f + 5 + 1 by omega,
      decodeStep_currentBalance (f + 5) 4 (by norm_num) _ _ hcb64 _,
      show f + 5 = f + 4 + 1 by omega,
      decodeStep_lastUpdate (f + 4) 5 (by norm_num) _ _ hlu64 _,
      show f + 4 = f + 3 + 1 by omega,
      decodeStep_invoices (f + 3) 6 _ (by norm_num) _ a.invoices _ hinvc hiwf
        hinvcount,
      show f + 3 = f + 2 + 1 by omega,
      decodeStep_payments_last (f + 2) 8 _ (by norm_num) _ a.payments hpayc hpwf
        (by norm_num at hpaylen ⊢; omega)]
    simp [initDecState, Nat.mod_eq_of_lt hty]

theorem serializeAccount_length_ge (a : OffChainBalanceAccount) :
    8 ≤ (serializeAccount a).length := by
  unfold serializeAccount tlvRecord
  cases a.expirationDate.isZero <;> simp <;> omega

theorem deserializeAccountState_serializeAccount (a : OffChainBalanceAccount)
    (hwf : accountWF a) :
    deserializeAccountState (serializeAccount a) = some (encodedDecState a) := by
  unfold deserializeAccountState
  have hlen := serializeAccount_length_ge a
  rw [show (serializeAccount a).length + 1 =
      ((serializeAccount a).length - 8) + 9 by omega]
  exact decodeLoop_serializeAccount a hwf _

theorem deserializeAccount_serializeAccount_eq (a : OffChainBalanceAccount)
    (hwf : accountWF a) :
    deserializeAccount (serializeAccount a) =
      some (finalizeAccount (encodedDecState a)) := by
  unfold deserializeAccount
  rw [deserializeAccountState_serializeAccount a hwf]
  rfl

/-- A concrete well-typed account: its single payment entry has the `int32`
status value 256, which `byte(entry.Status)` truncates to 0. -/
def statusOverflowAccount : OffChainBalanceAccount :=
  { id := List.replicate 32 0
  , accountType := 0
  , initialBalance := 0
  , currentBalance := 0
  , lastUpdate := GoTime.unix 0
  , expirationDate := GoTime.zeroTime
  , invoices := []
  , payments := [(List.replicate 32 0, ⟨256, 0⟩)] }

/-- C1 counterexample: for the account whose payment status is 256, the
serialize/deserialize round trip does not return an equal payments map
(the decoded status is 0), so the round trip does not preserve every
non-nil account. -/
theorem serializeAccount_roundTrip_statusOverflow :
    (deserializeAccount (serializeAccount statusOverflowAccount)).map
        OffChainBalanceAccount.payments ≠
      some statusOverflowAccount.payments := by
  rw [deserializeAccount_serializeAccount_eq statusOverflowAccount (by decide)]
  decide

/-- C1 (amended: additionally each payment entry's Status must lie in
[0, 255], as the encoder stores it in a single byte): deserializeAccount
applied to serializeAccount of a well-formed account returns an account
with the same ID, Type, InitialBalance, CurrentBalance, LastUpdate as a
nanosecond instant, ExpirationDate, Invoices set and Payments map. -/
theorem serializeAccount_deserializeAccount (a : OffChainBalanceAccount)
    (hwf : accountWF a)
    (hst : ∀ e ∈ a.payments, 0 ≤ e.2.status ∧ e.2.status < 256) :
    ∃ a2, deserializeAccount (serializeAccount a) = some a2 ∧
      a2.id = a.id ∧ a2.accountType = a.accountType ∧
      a2.initialBalance = a.initialBalance ∧
      a2.currentBalance = a.currentBalance ∧
      a2.lastUpdate.unixNano = a.lastUpdate.unixNano ∧
      a2.expirationDate = a.expirationDate ∧
      a2.invoices = a.invoices ∧ a2.payments = a.payments := by
  have hmain := deserializeAccount_serializeAccount_eq a hwf
  obtain ⟨hid, hidb, hty, hib, hcb, hlu, hexp, hinv, hinvnd, hinvlen, hpay,
    hpaynd, hpaylen⟩ := hwf
  have hmap : (a.payments.map fun e => (e.1, truncPaymentEntry e.2)) =
      a.payments := by
    apply map_truncPaymentEntry_eq
    intro e he
    obtain ⟨h0, h1⟩ := hst e he
    exact ⟨h0, h1, (hpay e he).2.2.2⟩
  refine ⟨finalizeAccount (encodedDecState a), hmain, ?_, ?_, ?_, ?_, ?_, ?_,
    ?_, ?_⟩
  · have h1 : a.id.take 32 = a.id := List.take_of_length_le (by omega)
    simp [finalizeAccount, encodedDecState, hid, h1]
  · simp [finalizeAccount, encodedDecState]
  · simp [finalizeAccount, encodedDecState]
  · simp only [finalizeAccount, encodedDecState]
    exact int64Cast_uint64Cast _ hcb.1 hcb.2
  · have hrange := unixNano_int64 a.lastUpdate hlu
    simp only [finalizeAccount, encodedDecState, GoTime.unixNano]
    exact int64Cast_uint64Cast _ hrange.1 hrange.2
  · cases hE : a.expirationDate with
    | zeroTime => simp [finalizeAccount, encodedDecState, hE, GoTime.isZero]
    | unix ns =>
      have hrange : Int64Range ns := by rw [hE] at hexp; exact hexp
      simp [finalizeAccount, encodedDecState, hE, GoTime.isZero,
        GoTime.unixNano]
      exact int64Cast_uint64Cast ns hrange.1 hrange.2
  · simp [finalizeAccount, encodedDecState]
  · simp [finalizeAccount, encodedDecState, hmap]

/-- A small, fully concrete well-formed account used to instantiate the
round-trip theorems. -/
def sampleAccount : OffChainBalanceAccount :=
  { id := List.replicate 32 7
  , accountType := 1
  , initialBalance := 1000
  , currentBalance := -5
  , lastUpdate := GoTime.unix 1700000000000000000
  , expirationDate := GoTime.zeroTime
  , invoices := [List.replicate 32 9]
  , payments := [(List.replicate 32 11, ⟨1, 600⟩)] }

/-- C1 witness: the amended round-trip theorem instantiated at
`sampleAccount`. -/
theorem serializeAccount_deserializeAccount_witness :
    ∃ a2, deserializeAccount (serializeAccount sampleAccount) = some a2 ∧
      a2.id = sampleAccount.id ∧ a2.accountType = sampleAccount.accountType ∧
      a2.initialBalance = sampleAccount.initialBalance ∧
      a2.currentBalance = sampleAccount.currentBalance ∧
      a2.lastUpdate.unixNano = sampleAccount.lastUpdate.unixNano ∧
      a2.expirationDate = sampleAccount.expirationDate ∧
      a2.invoices = sampleAccount.invoices ∧
      a2.payments = sampleAccount.payments :=
  serializeAccount_deserializeAccount sampleAccount (by decide) (by decide)

/-- C2: the expiration-date record is present in a serialized stream iff
the account's ExpirationDate is non-zero, and a decoded account's
ExpirationDate is the zero value iff the type-6 record is absent from the
decoded stream — an absent field decodes as not set, never as set to
zero. -/
theorem expiration_absent_iff_not_set :
    (∀ a : OffChainBalanceAccount, accountWF a →
      ∃ st, deserializeAccountState (serializeAccount a) = some st ∧
        (6 ∈ st.parsed ↔ a.expirationDate.isZero = false)) ∧
    (∀ bs st, deserializeAccountState bs = some st →
      deserializeAccount bs = some (finalizeAccount st) ∧
      ((finalizeAccount st).expirationDate = GoTime.zeroTime ↔
        6 ∉ st.parsed)) := by
  constructor
  · intro a hwf
    refine ⟨encodedDecState a, deserializeAccountState_serializeAccount a hwf,
      ?_⟩
    unfold encodedDecState
    cases hz : a.expirationDate.isZero <;> simp
  · intro bs st h
    constructor
    · unfold deserializeAccount
      rw [h]
      rfl
    · unfold finalizeAccount
      by_cases h6 : 6 ∈ st.parsed <;> simp [h6]

/-- C2 witness: both halves instantiated, at `sampleAccount` and at the
empty stream. -/
theorem expiration_absent_iff_not_set_witness :
    (∃ st, deserializeAccountState (serializeAccount sampleAccount) = some st ∧
      (6 ∈ st.parsed ↔ sampleAccount.expirationDate.isZero = false)) ∧
    (deserializeAccount [] = some (finalizeAccount initDecState) ∧
      ((finalizeAccount initDecState).expirationDate = GoTime.zeroTime ↔
        6 ∉ initDecState.parsed)) :=
  ⟨expiration_absent_iff_not_set.1 sampleAccount (by decide),
   expiration_absent_iff_not_set.2 [] initDecState (by decide)⟩

theorem flatten_length_const (n : Nat) :
    ∀ l : List (List Nat), (∀ h ∈ l, h.length = n) →
      l.flatten.length = l.length * n := by
  intro l
  induction l with
  | nil => intro _; simp
  | cons h t ih =>
    intro hwf
    have h1 := hwf h (by simp)
    have h2 := ih fun x hx => hwf x (by simp [hx])
    simp only [List.flatten_cons, List.length_append, List.length_cons, h1, h2]
    ring

theorem encodePaymentEntry_length (h : List Nat) (p : PaymentEntry)
    (hh : h.length = 32) : (encodePaymentEntry h p).length = 41 := by
  simp [encodePaymentEntry, hh]

/-- C3 counterexample: already for the empty maps the encoders write one
byte (the BigSize entry count 0) while the recordSize closures return 0, so
the number of bytes written does not equal the recordSize value. -/
theorem recordSize_mismatch_empty :
    ¬ ((HashMapEncoder []).length = hashMapRecordSize [] ∧
       (PaymentEntryMapEncoder []).length = paymentEntryMapRecordSize []) := by
  decide

/-- C3 (amended): each encoder writes the BigSize encoding of the entry
count followed by the fixed-size per-entry bytes, so the bytes written
equal the BigSize length of the count plus the recordSize closure's value
(entries times 32 for hashes, entries times 41 for payment entries); the
closures undercount the stream by the count prefix. -/
theorem encoder_length_eq_varint_plus_recordSize
    (l : List (List Nat)) (hl : ∀ h ∈ l, h.length = 32)
    (p : List (List Nat × PaymentEntry)) (hp : ∀ e ∈ p, e.1.length = 32) :
    (HashMapEncoder l).length =
      (writeVarInt l.length).length + hashMapRecordSize l ∧
    (PaymentEntryMapEncoder p).length =
      (writeVarInt p.length).length + paymentEntryMapRecordSize p := by
  constructor
  · unfold HashMapEncoder hashMapRecordSize
    rw [List.length_append, flatten_length_const 32 l hl]
  · unfold PaymentEntryMapEncoder paymentEntryMapRecordSize
    rw [List.length_append]
    have h41 : ∀ x ∈ p.map fun e => encodePaymentEntry e.1 e.2,
        x.length = 41 := by
      intro x hx
      obtain ⟨e, he, rfl⟩ := List.mem_map.mp hx
      exact encodePaymentEntry_length e.1 e.2 (hp e he)
    rw [flatten_length_const 41 _ h41, List.length_map]

/-- C3 witness: the amended length equation instantiated at one-element
maps. -/
theorem encoder_length_eq_witness :
    (HashMapEncoder [List.replicate 32 9]).length =
      (writeVarInt [List.replicate 32 9].length).length +
        hashMapRecordSize [List.replicate 32 9] ∧
    (PaymentEntryMapEncoder [(List.replicate 32 11, ⟨1, 600⟩)]).length =
      (writeVarInt [(List.replicate 32 11,
          (⟨1, 600⟩ : PaymentEntry))].length).length +
        paymentEntryMapRecordSize [(List.replicate 32 11, ⟨1, 600⟩)] :=
  encoder_length_eq_varint_plus_recordSize _ (by decide) _ (by decide)

/-- C4: HashMapDecoder applied to HashMapEncoder's output returns an equal
hash set, and PaymentEntryMapDecoder applied to PaymentEntryMapEncoder's
output returns an equal map whenever every entry's Status lies in
[0, 255]. -/
theorem mapCodecs_roundTrip :
    (∀ l : List (List Nat), (∀ h ∈ l, h.length = 32) → l.length < 2 ^ 63 →
      HashMapDecoder (HashMapEncoder l) = some (l, [])) ∧
    (∀ p : List (List Nat × PaymentEntry),
      (∀ e ∈ p, e.1.length = 32 ∧ 0 ≤ e.2.status ∧ e.2.status < 256 ∧
        e.2.fullAmount < 2 ^ 64) → p.length < 2 ^ 63 →
      PaymentEntryMapDecoder (PaymentEntryMapEncoder p) = some (p, [])) := by
  constructor
  · intro l hwf hlen
    have h1 := HashMapDecoder_encode l hwf (lt_trans hlen (by norm_num)) []
    rwa [List.append_nil] at h1
  · intro p hwf hlen
    have h1 := PaymentEntryMapDecoder_encode p (fun e he => (hwf e he).1)
      (lt_trans hlen (by norm_num)) []
    rw [List.append_nil] at h1
    rw [h1, map_truncPaymentEntry_eq p
      (fun e he => ⟨(hwf e he).2.1, (hwf e he).2.2.1, (hwf e he).2.2.2⟩)]

/-- C4 witness: both codecs round-trip one-element maps. -/
theorem mapCodecs_roundTrip_witness :
    HashMapDecoder (HashMapEncoder [List.replicate 32 9]) =
      some ([List.replicate 32 9], []) ∧
    PaymentEntryMapDecoder (PaymentEntryMapEncoder
        [(List.replicate 32 11, ⟨1, 600⟩)]) =
      some ([(List.replicate 32 11, ⟨1, 600⟩)], []) :=
  ⟨mapCodecs_roundTrip.1 _ (by decide) (by decide),
   mapCodecs_roundTrip.2 _ (by decide) (by decide)⟩

/-- C5: the `uint64(account.CurrentBalance)` cast applied by
serializeAccount followed by the `int64(currentBalance)` cast applied by
deserializeAccount returns the original value for every int64, negative
values included. -/
theorem currentBalance_cast_roundTrip (i : Int) (h1 : -(2 ^ 63) ≤ i)
    (h2 : i < 2 ^ 63) : int64Cast (uint64Cast i) = i :=
  int64Cast_uint64Cast i h1 h2

/-- C5 witness at the negative value -5. -/
theorem currentBalance_cast_roundTrip_witness :
    int64Cast (uint64Cast (-5)) = -5 :=
  currentBalance_cast_roundTrip (-5) (by norm_num) (by norm_num)

/-! ### Numeric codec (spec §4.1; `firewalldb.Uint64ToStr`/`StrToUint64`,
whose source file is not part of the corpus) -/

/-- The character for a decimal digit. -/
def digitChar (d : Nat) : Char := Char.ofNat (48 + d)

/-- Whether a character is a decimal digit. -/
def isDecDigit (c : Char) : Bool := 48 ≤ c.toNat && c.toNat ≤ 57

/-- The numeric value of a decimal digit character. -/
def digitVal (c : Char) : Nat := c.toNat - 48

/-- The fixed width of the decimal encoding: `2 ^ 64 - 1` has 20 decimal
digits. -/
def uint64StrWidth : Nat := 20

/-- Modelled from the spec: `firewalldb.Uint64ToStr` (its source file is
missing from the corpus). Spec §4.1: a deterministic fixed-width decimal
encoding of the full uint64 range, so a value is written as its 20-digit
zero-padded decimal representation. -/
def Uint64ToStr (u : Nat) : String :=
  String.mk ((baseDigits 10 uint64StrWidth u).map digitChar)

/-- Modelled from the spec: `firewalldb.StrToUint64` (its source file is
missing from the corpus). Spec §4.1: decode fails if the input is not
exactly the expected width or contains a non-decimal character; a
well-formed 20-digit string whose value exceeds the uint64 range cannot be
returned in a uint64 and also fails. -/
def StrToUint64 (s : String) : Except String Nat :=
  if s.data.length = uint64StrWidth ∧ ∀ c ∈ s.data, isDecDigit c = true then
    if baseVal 10 (s.data.map digitVal) < 2 ^ 64 then
      .ok (baseVal 10 (s.data.map digitVal))
    else .error "value overflows uint64"
  else .error "malformed fixed-width decimal"

theorem digitChar_toNat (d : Nat) (hd : d < 10) :
    (digitChar d).toNat = 48 + d := by
  interval_cases d <;> decide

theorem isDecDigit_digitChar (d : Nat) (hd : d < 10) :
    isDecDigit (digitChar d) = true := by
  simp [isDecDigit, digitChar_toNat d hd]
  omega

theorem digitVal_digitChar (d : Nat) (hd : d < 10) :
    digitVal (digitChar d) = d := by
  simp [digitVal, digitChar_toNat d hd]

theorem digitChar_digitVal (c : Char) (h : isDecDigit c = true) :
    digitChar (digitVal c) = c := by
  simp [isDecDigit] at h
  have h48 : 48 + (c.toNat - 48) = c.toNat := by omega
  rw [digitChar, digitVal, h48, Char.ofNat_toNat]

theorem string_mk_data (l : List Char) : (String.mk l).data = l := rfl

theorem strToUint64_roundTrip_core (u : Nat) (hu : u < 2 ^ 64) :
    StrToUint64 (Uint64ToStr u) = .ok u := by
  unfold StrToUint64 Uint64ToStr
  rw [string_mk_data]
  have hds : ∀ d ∈ baseDigits 10 uint64StrWidth u, d < 10 :=
    baseDigits_lt 10 _ (by norm_num) u
  have hlen : ((baseDigits 10 uint64StrWidth u).map digitChar).length =
      uint64StrWidth := by simp
  have hdig : ∀ c ∈ (baseDigits 10 uint64StrWidth u).map digitChar,
      isDecDigit c = true := by
    intro c hc
    obtain ⟨d, hd, rfl⟩ := List.mem_map.mp hc
    exact isDecDigit_digitChar d (hds d hd)
  have hmapval : (((baseDigits 10 uint64StrWidth u).map digitChar).map
      digitVal) = baseDigits 10 uint64StrWidth u := by
    rw [List.map_map]
    have hpt : ∀ d ∈ baseDigits 10 uint64StrWidth u,
        (digitVal ∘ digitChar) d = d :=
      fun d hd => digitVal_digitChar d (hds d hd)
    rw [List.map_congr_left hpt]
    simp
  have hval : baseVal 10 (((baseDigits 10 uint64StrWidth u).map
      digitChar).map digitVal) = u := by
    rw [hmapval, baseVal_baseDigits]
    apply Nat.mod_eq_of_lt
    calc u < 2 ^ 64 := hu
    _ < 10 ^ uint64StrWidth := by norm_num [uint64StrWidth]
  rw [if_pos ⟨hlen, hdig⟩, hval, if_pos hu]

/-- C6: for every uint64 `u`, `StrToUint64 (Uint64ToStr u)` returns `u`
exactly. -/
theorem strToUint64_uint64ToStr (u : Nat) (hu : u < 2 ^ 64) :
    StrToUint64 (Uint64ToStr u) = .ok u :=
  strToUint64_roundTrip_core u hu

/-- C6 witness at a concrete value. -/
theorem strToUint64_uint64ToStr_witness :
    StrToUint64 (Uint64ToStr 18446744073709551615) =
      .ok 18446744073709551615 :=
  strToUint64_uint64ToStr 18446744073709551615 (by norm_num)

/-- C7: StrToUint64 fails on every input that is not exactly the fixed
width or contains a character outside the decimal alphabet, and whenever it
succeeds the input was exactly the fixed-width encoding of the returned
uint64 value. -/
theorem strToUint64_malformed :
    (∀ s : String, (s.data.length ≠ uint64StrWidth ∨
        ∃ c ∈ s.data, isDecDigit c = false) →
      ∃ e, StrToUint64 s = .error e) ∧
    (∀ s u, StrToUint64 s = .ok u → u < 2 ^ 64 ∧ s = Uint64ToStr u) := by
  constructor
  · intro s hs
    unfold StrToUint64
    rw [if_neg]
    · exact ⟨_, rfl⟩
    · rintro ⟨h1, h2⟩
      rcases hs with h | ⟨c, hc, hcf⟩
      · exact h h1
      · rw [h2 c hc] at hcf
        cases hcf
  · intro s u h
    unfold StrToUint64 at h
    by_cases hcond : s.data.length = uint64StrWidth ∧
        ∀ c ∈ s.data, isDecDigit c = true
    · rw [if_pos hcond] at h
      obtain ⟨hlen, hdig⟩ := hcond
      by_cases hover : baseVal 10 (s.data.map digitVal) < 2 ^ 64
      · rw [if_pos hover] at h
        have hu : baseVal 10 (s.data.map digitVal) = u := by
          simpa using h
        refine ⟨by omega, ?_⟩
        have hlt : ∀ d ∈ s.data.map digitVal, d < 10 := by
          intro d hd
          obtain ⟨c, hc, rfl⟩ := List.mem_map.mp hd
          have hdc := hdig c hc
          simp [isDecDigit] at hdc
          simp [digitVal]
          omega
        have hdigits := baseDigits_baseVal 10 (by norm_num)
          (s.data.map digitVal) hlt
        have hlenmap : (s.data.map digitVal).length = uint64StrWidth := by
          simpa using hlen
        rw [hlenmap, hu] at hdigits
        have hchars : (s.data.map digitVal).map digitChar = s.data := by
          rw [List.map_map]
          have hpt : ∀ c ∈ s.data, (digitChar ∘ digitVal) c = c :=
            fun c hc => digitChar_digitVal c (hdig c hc)
          rw [List.map_congr_left hpt]
          simp
        unfold Uint64ToStr
        rw [hdigits, hchars]
      · rw [if_neg hover] at h
        cases h
    · rw [if_neg hcond] at h
      cases h

/-- C7 witness: a wrong-width input fails, and a successful decode
characterizes its input as the encoding of its output. -/
theorem strToUint64_malformed_witness :
    (∃ e, StrToUint64 "abc" = .error e) ∧
    (7 < 2 ^ 64 ∧ Uint64ToStr 7 = Uint64ToStr 7) :=
  ⟨strToUint64_malformed.1 "abc" (Or.inl (by decide)),
   strToUint64_malformed.2 (Uint64ToStr 7) 7
     (strToUint64_roundTrip_core 7 (by norm_num))⟩

/-! ### litcli `privacy p uint64` (cmd/litcli/privacy_map.go) -/

/-- The value of one hexadecimal digit character, if any (`encoding/hex`
accepts `0-9`, `a-f`, `A-F`). -/
def hexDigitVal (c : Char) : Option Nat :=
  if 48 ≤ c.toNat ∧ c.toNat ≤ 57 then some (c.toNat - 48)
  else if 97 ≤ c.toNat ∧ c.toNat ≤ 102 then some (c.toNat - 87)
  else if 65 ≤ c.toNat ∧ c.toNat ≤ 70 then some (c.toNat - 55)
  else none

/-- `hex.DecodeString` over the character list: pairs of hex digits become
bytes; odd length or a non-hex character fails. -/
def hexDecodePairs : List Char → Option (List Nat)
  | [] => some []
  | [_] => none
  | c1 :: c2 :: rest =>
    match hexDigitVal c1, hexDigitVal c2, hexDecodePairs rest with
    | some hi, some lo, some bs => some ((16 * hi + lo) :: bs)
    | _, _, _ => none

/-- Go `hex.DecodeString`. -/
def hexDecodeString (s : String) : Option (List Nat) :=
  hexDecodePairs s.data

/-- `litrpc.PrivacyMapConversionRequest` as filled in by litcli. -/
structure PrivacyMapConversionRequest where
  sessionId : List Nat
  realToPseudo : Bool
  input : String
deriving DecidableEq

/-- `privacyMapConvertUint64`: decode the session id from hex, put
`Uint64ToStr` of the uint64 CLI input into the request's Input field, call
the server, apply `StrToUint64` to the response's Output, and print the
result with `%d`. The RPC call is abstracted as a function from the request
to the response's Output field (or an error). The returned pair is the
request that was sent and the string that was printed. -/
def privacyMapConvertUint64
    (server : PrivacyMapConversionRequest → Except String String)
    (sessionIdHex : String) (realToPseudo : Bool) (input : Nat) :
    Except String (PrivacyMapConversionRequest × String) :=
  match hexDecodeString sessionIdHex with
  | none => .error "invalid session id hex"
  | some sid =>
    let req : PrivacyMapConversionRequest :=
      { sessionId := sid, realToPseudo := realToPseudo
      , input := Uint64ToStr input }
    match server req with
    | .error e => .error e
    | .ok out =>
      match StrToUint64 out with
      | .error e => .error e
      | .ok o => .ok (req, toString o)

/-- C8: whenever privacyMapConvertUint64 completes, the request it sent
carried `Uint64ToStr` of the uint64 input in its Input field, and the
printed output is the `%d` rendering of `StrToUint64` applied to the
response's Output — the codec is applied symmetrically on both directions
and the mapper side only ever sees the string form. -/
theorem privacyMapConvertUint64_codec
    (server : PrivacyMapConversionRequest → Except String String)
    (sessionIdHex : String) (realToPseudo : Bool) (input : Nat)
    (req : PrivacyMapConversionRequest) (printed : String)
    (h : privacyMapConvertUint64 server sessionIdHex realToPseudo input =
      .ok (req, printed)) :
    req.input = Uint64ToStr input ∧
    ∃ out o, server req = .ok out ∧ StrToUint64 out = .ok o ∧
      printed = toString o := by
  unfold privacyMapConvertUint64 at h
  rcases hh : hexDecodeString sessionIdHex with _ | sid
  · rw [hh] at h
    cases h
  · rw [hh] at h
    dsimp only at h
    rcases hs : server ⟨sid, realToPseudo, Uint64ToStr input⟩ with e | out
    · rw [hs] at h
      cases h
    · rw [hs] at h
      dsimp only at h
      rcases ho : StrToUint64 out with e | o
      · rw [ho] at h
        cases h
      · rw [ho] at h
        dsimp only at h
        simp only [Except.ok.injEq, Prod.mk.injEq] at h
        obtain ⟨hreq, hprint⟩ := h
        subst hreq
        exact ⟨rfl, out, o, hs, ho, hprint.symm⟩

/-- A stub server used to instantiate the litcli pipeline theorem. -/
def witnessServer : PrivacyMapConversionRequest → Except String String :=
  fun _ => .ok (Uint64ToStr 7)

/-- C8 witness: the pipeline theorem instantiated at a concrete call. -/
theorem privacyMapConvertUint64_codec_witness :
    (PrivacyMapConversionRequest.mk [10] true (Uint64ToStr 5)).input =
      Uint64ToStr 5 ∧
    ∃ out o, witnessServer
        (PrivacyMapConversionRequest.mk [10] true (Uint64ToStr 5)) =
          .ok out ∧ StrToUint64 out = .ok o ∧
      toString (7 : Nat) = toString o :=
  privacyMapConvertUint64_codec witnessServer "0a" true 5
    (PrivacyMapConversionRequest.mk [10] true (Uint64ToStr 5))
    (toString (7 : Nat))
    (by unfold privacyMapConvertUint64 witnessServer
        rw [show hexDecodeString "0a" = some [10] from by decide]
        dsimp only
        rw [strToUint64_roundTrip_core 7 (by norm_num)])

/-! ### Privacy mapper (spec §4.2; the firewalldb privacy-mapper source is
not part of the corpus, so the store is modelled from the spec) -/

/-- Modelled from the spec: one session's privacy-map namespace, a store of
(real, pseudo) pairs (spec §3 "Privacy Map Pair", §4.2). Newest pairs are
consed to the front. -/
structure PrivMapNamespace where
  pairs : List (String × String)
deriving DecidableEq

/-- The pseudo values already used in a namespace. -/
def pseudos (st : PrivMapNamespace) : List String := st.pairs.map Prod.snd

/-- The real values present in a namespace. -/
def reals (st : PrivMapNamespace) : List String := st.pairs.map Prod.fst

/-- Forward lookup of a real value. -/
def lookupReal (st : PrivMapNamespace) (v : String) : Option String :=
  (st.pairs.find? fun p => p.1 == v).map Prod.snd

/-- Modelled from the spec: `realToPseudo` (§4.2) — return the existing
pseudo value if the real value is known, otherwise persist the pair with a
freshly generated pseudonym and return it. The pseudorandom generator's
output is passed in as `freshVal`; the theorems assume it is distinct from
every pseudo value already used, as §4.2 requires. -/
def realToPseudo (st : PrivMapNamespace) (v freshVal : String) :
    String × PrivMapNamespace :=
  match lookupReal st v with
  | some p => (p, st)
  | none => (freshVal, ⟨(v, freshVal) :: st.pairs⟩)

/-- Modelled from the spec: `pseudoToReal` (§4.2) — reverse lookup, failing
when the pseudo value was never issued for the session. -/
def pseudoToReal (st : PrivMapNamespace) (p : String) : Option String :=
  (st.pairs.find? fun q => q.2 == p).map Prod.fst

/-- The bijection invariant of §3: real values are pairwise distinct and so
are pseudo values. -/
def mapperWF (st : PrivMapNamespace) : Prop :=
  (reals st).Nodup ∧ (pseudos st).Nodup

instance (st : PrivMapNamespace) : Decidable (mapperWF st) := by
  unfold mapperWF; infer_instance

theorem lookupReal_mem (st : PrivMapNamespace) (v p : String)
    (h : lookupReal st v = some p) : (v, p) ∈ st.pairs := by
  unfold lookupReal at h
  rcases hf : st.pairs.find? fun q => q.1 == v with _ | q
  · rw [hf] at h
    cases h
  · rw [hf] at h
    have hqmem : q ∈ st.pairs := List.mem_of_find?_eq_some hf
    have hqv := List.find?_some hf
    have hv : q.1 = v := by simpa using hqv
    have hp : q.2 = p := by simpa using h
    have hq : q = (v, p) := by
      cases q
      simp_all
    rw [← hq]
    exact hqmem

theorem pseudoToReal_of_mem (st : PrivMapNamespace) (v p : String)
    (hwf : mapperWF st) (hmem : (v, p) ∈ st.pairs) :
    pseudoToReal st p = some v := by
  unfold pseudoToReal
  rcases hf : st.pairs.find? fun q => q.2 == p with _ | q
  · exfalso
    have := List.find?_eq_none.mp hf (v, p) hmem
    simp at this
  · have hqmem : q ∈ st.pairs := List.mem_of_find?_eq_some hf
    have hqp := List.find?_some hf
    have hsnd : q.2 = p := by simpa using hqp
    have hinj := List.inj_on_of_nodup_map hwf.2
    have hq : q = (v, p) := hinj hqmem hmem (by simpa using hsnd)
    rw [hf, hq]
    rfl

theorem realToPseudo_of_none (st : PrivMapNamespace) (v f : String)
    (h : lookupReal st v = none) :
    realToPseudo st v f = (f, ⟨(v, f) :: st.pairs⟩) := by
  unfold realToPseudo
  rw [h]

theorem realToPseudo_of_some (st : PrivMapNamespace) (v f p : String)
    (h : lookupReal st v = some p) :
    realToPseudo st v f = (p, st) := by
  unfold realToPseudo
  rw [h]

/-- C9 (spec-modelled): within a session namespace the mapping is a
bijection — threading the store through two conversions of distinct real
values yields distinct pseudonyms, and the reverse lookup of a converted
value returns the original real value. The fresh pseudonyms `f1`, `f2` are
assumed distinct from every pseudo value already used, which is what §4.2
requires of the generator. -/
theorem privacyMapper_bijection (st : PrivMapNamespace) (v1 v2 f1 f2 : String)
    (hwf : mapperWF st) (hne : v1 ≠ v2)
    (hf1 : f1 ∉ pseudos st)
    (hf2 : f2 ∉ pseudos (realToPseudo st v1 f1).2) :
    (realToPseudo st v1 f1).1 ≠
      (realToPseudo (realToPseudo st v1 f1).2 v2 f2).1 ∧
    pseudoToReal (realToPseudo st v1 f1).2 (realToPseudo st v1 f1).1 =
      some v1 := by
  rcases h1 : lookupReal st v1 with _ | p1
  · -- v1 is new: the pair (v1, f1) is created.
    have e1 := realToPseudo_of_none st v1 f1 h1
    rw [e1] at hf2 ⊢
    dsimp only at hf2 ⊢
    have hlk2 : lookupReal ⟨(v1, f1) :: st.pairs⟩ v2 = lookupReal st v2 := by
      unfold lookupReal
      simp only [List.find?_cons]
      have hbeq : (v1 == v2) = false := by simp [hne]
      rw [hbeq]
    constructor
    · rcases h2 : lookupReal st v2 with _ | p2
      · rw [realToPseudo_of_none _ v2 f2 (hlk2.trans h2)]
        dsimp only
        intro hcontra
        apply hf2
        rw [← hcontra]
        unfold pseudos
        simp
      · rw [realToPseudo_of_some _ v2 f2 p2 (hlk2.trans h2)]
        dsimp only
        intro hcontra
        apply hf1
        rw [hcontra]
        unfold pseudos
        exact List.mem_map_of_mem Prod.snd (lookupReal_mem st v2 p2 h2)
    · unfold pseudoToReal
      rw [List.find?_cons_of_pos _ (by simp)]
      rfl
  · -- v1 already has a pseudonym; the store is unchanged.
    have e1 := realToPseudo_of_some st v1 f1 p1 h1
    rw [e1] at hf2 ⊢
    dsimp only at hf2 ⊢
    have hmem1 : (v1, p1) ∈ st.pairs := lookupReal_mem st v1 p1 h1
    constructor
    · rcases h2 : lookupReal st v2 with _ | p2
      · rw [realToPseudo_of_none st v2 f2 h2]
        dsimp only
        intro hcontra
        apply hf2
        rw [← hcontra]
        exact List.mem_map_of_mem Prod.snd hmem1
      · rw [realToPseudo_of_some st v2 f2 p2 h2]
        dsimp only
        intro hcontra
        have hmem2 : (v2, p2) ∈ st.pairs := lookupReal_mem st v2 p2 h2
        have hinj := List.inj_on_of_nodup_map hwf.2
        have heq := hinj hmem1 hmem2 (by simpa using hcontra)
        simp at heq
        exact hne heq.1
    · exact pseudoToReal_of_mem st v1 p1 hwf hmem1

/-- C9 witness: a fresh conversion of "a" then "b" on the empty namespace
with fresh pseudonyms "x" and "y". -/
theorem privacyMapper_bijection_witness :
    (realToPseudo ⟨[]⟩ "a" "x").1 ≠
      (realToPseudo (realToPseudo ⟨[]⟩ "a" "x").2 "b" "y").1 ∧
    pseudoToReal (realToPseudo ⟨[]⟩ "a" "x").2 (realToPseudo ⟨[]⟩ "a" "x").1 =
      some "a" :=
  privacyMapper_bijection ⟨[]⟩ "a" "b" "x" "y" (by decide) (by decide)
    (by decide) (by decide)

/-! ### Account ledger `reservePayment` (spec §4.3; the accounts service
source is not part of the corpus, so it is modelled from the spec) -/

/-- Modelled from the spec: the balance-affecting state of one ledger
account (§3, §4.3): the signed current balance, the pending payment
reservations, and the last-update timestamp. -/
structure LedgerAccount where
  currentBalance : Int
  pendingPayments : List (List Nat × Nat)
  lastUpdate : Int
deriving DecidableEq

/-- The outcome of a reservation: `ok` or a declined `insufficient`
result (not an error). -/
inductive ReserveResult where
  | ok
  | insufficient
deriving DecidableEq

/-- Modelled from the spec: `reservePayment` (§4.3) — decline when
`reserveAmount > current_balance`; otherwise debit `current_balance` by
`reserveAmount`, record the pending payment entry, and update
`last_update`. -/
def reservePayment (a : LedgerAccount) (paymentHash : List Nat)
    (reserveAmount : Nat) (now : Int) : ReserveResult × LedgerAccount :=
  if (reserveAmount : Int) > a.currentBalance then (.insufficient, a)
  else (.ok,
    { currentBalance := a.currentBalance - reserveAmount
    , pendingPayments := (paymentHash, reserveAmount) :: a.pendingPayments
    , lastUpdate := now })

/-- C10 (spec-modelled): reservePayment declines whenever the reserve
amount exceeds the current balance, and on success it debits the balance by
exactly the reserve amount, so a successful reservation never leaves the
balance below zero. -/
theorem reservePayment_spec (a : LedgerAccount) (paymentHash : List Nat)
    (reserveAmount : Nat) (now : Int) :
    ((reserveAmount : Int) > a.currentBalance →
      (reservePayment a paymentHash reserveAmount now).1 = .insufficient) ∧
    ((reservePayment a paymentHash reserveAmount now).1 = .ok →
      (reservePayment a paymentHash reserveAmount now).2.currentBalance =
        a.currentBalance - reserveAmount ∧
      0 ≤ (reservePayment a paymentHash reserveAmount now).2.currentBalance)
    := by
  unfold reservePayment
  split_ifs with h
  · exact ⟨fun _ => rfl, fun hok => by cases hok⟩
  · refine ⟨fun hgt => absurd hgt h, fun _ => ⟨rfl, ?_⟩⟩
    dsimp only
    omega

/-- C10 witness: reserving 400 out of a balance of 1000 succeeds and leaves
600; the decline implication holds vacuously there. -/
theorem reservePayment_spec_witness :
    (((400 : Nat) : Int) > (1000 : Int) →
      (reservePayment ⟨1000, [], 0⟩ [1] 400 5).1 = .insufficient) ∧
    ((reservePayment ⟨1000, [], 0⟩ [1] 400 5).1 = .ok →
      (reservePayment ⟨1000, [], 0⟩ [1] 400 5).2.currentBalance =
        (1000 : Int) - (400 : Nat) ∧
      0 ≤ (reservePayment ⟨1000, [], 0⟩ [1] 400 5).2.currentBalance) :=
  reservePayment_spec ⟨1000, [], 0⟩ [1] 400 5

end LitVerify
